import Mathlib

/-!
Verification of the Ember+ client session engine
(`src/EmberClient/EmberClient.js` and the BER StreamDescription codec).

The request pipeline, response dispatch, merge functions and the facade
operations are embedded from `EmberClient.js`.  Tree-model primitives
(`getElementByPath`, `addChild`, `update`) and the StreamDescription
codec are not part of the provided sources and are modelled from the
specification where noted.
-/

namespace EmberPipeline

/-- Kind of a queued request, matching the closures created by the facade
operations `getDirectory`, `setValue`, `matrixOPeration`, `invokeFunction`,
`subscribe` and `unsubscribe` in `EmberClient.js`. An invocation carries
the client-allocated invocation id. -/
inductive RequestKind where
  | getDir
  | setVal
  | matrixOp
  | invoke (invId : Nat)
  | subscribeReq
  | unsubscribeReq
deriving DecidableEq, Repr

/-- Request kinds whose `func()` sends and then waits for a matched
response (their closures set `this._callback` and stay active), as opposed
to `subscribe`/`unsubscribe` which finish synchronously after sending. -/
def awaitsResponse : RequestKind → Bool
  | .getDir => true
  | .setVal => true
  | .matrixOp => true
  | .invoke _ => true
  | .subscribeReq => false
  | .unsubscribeReq => false

/-- A request record held in `_pendingRequests` / `_activeRequest`.
The JS record is `{node, func}`; the behaviour of `func` is determined by
which facade operation created it, captured here by `kind`.  `id` identifies
the request so that sends and waiter outcomes can be logged. -/
structure Request where
  id : Nat
  kind : RequestKind
deriving DecidableEq, Repr

/-- Observable outcome of a request's waiter (promise). -/
inductive Outcome where
  | resolvedOk
  | resolvedNode
  | resolvedInvocation (resultId : Nat)
  | failedTimeout
deriving DecidableEq, Repr

/-- The pipeline-relevant state of an `EmberClient` session:
`_pendingRequests`, `_activeRequest`, whether the request timer is armed
(`_timeout != null`), the log of request ids whose `func()` wrote bytes via
`sendBERNode`, and the log of waiter outcomes in settlement order. -/
structure ClientState where
  pendingRequests : List Request
  activeRequest : Option Request
  timeoutArmed : Bool
  sentLog : List Nat
  outcomes : List (Nat × Outcome)
deriving DecidableEq, Repr

/-- Fresh session: empty queue, no active request. -/
def initialState : ClientState :=
  { pendingRequests := []
    activeRequest := none
    timeoutArmed := false
    sentLog := []
    outcomes := [] }

/-- Embeds `_makeRequest` together with the synchronous part of the
activated request's `func()`.  Activation happens only when
`_activeRequest == null` and the queue is non-empty; the popped request's
`func()` runs immediately: kinds that await a response send their frame and
stay active; `subscribe`/`unsubscribe` send, call `_finishRequest()` (which
re-enters `_makeRequest`, hence the recursion) and then resolve.
`fuel` bounds the recursion by the queue length. -/
def activateFuel : Nat → ClientState → ClientState
  | 0, s => s
  | fuel + 1, s =>
    match s.activeRequest with
    | some _ => s
    | none =>
      match s.pendingRequests with
      | [] => s
      | r :: rest =>
        let s1 : ClientState :=
          { s with pendingRequests := rest, activeRequest := some r, timeoutArmed := true }
        if awaitsResponse r.kind then
          { s1 with sentLog := s1.sentLog ++ [r.id] }
        else
          let s2 := { s1 with sentLog := s1.sentLog ++ [r.id] }
          let s3 := activateFuel fuel
            { s2 with timeoutArmed := false, activeRequest := none }
          { s3 with outcomes := s3.outcomes ++ [(r.id, Outcome.resolvedOk)] }

/-- Embeds `_makeRequest` (entry point). -/
def makeRequest (s : ClientState) : ClientState :=
  activateFuel s.pendingRequests.length s

/-- Embeds `_finishRequest`: `_clearTimeout()`, `_activeRequest = null`,
then `_makeRequest()`. -/
def finishRequest (s : ClientState) : ClientState :=
  makeRequest { s with timeoutArmed := false, activeRequest := none }

/-- Embeds `addRequest`: push onto `_pendingRequests`, then `_makeRequest()`. -/
def addRequest (s : ClientState) (r : Request) : ClientState :=
  makeRequest { s with pendingRequests := s.pendingRequests ++ [r] }

/-- Embeds `_timeoutRequest`: the active request's `func` is invoked with its
timeout error.  The error branches of the closures differ per operation:
`invokeFunction` rejects then calls `_finishRequest()`;
`getDirectory` / `setValue` / `matrixOPeration` call `_finishRequest()` then
reject; `subscribe` / `unsubscribe` only reject (`return reject(error)`),
without `_finishRequest()`. -/
def timeoutRequest (s : ClientState) : ClientState :=
  match s.activeRequest with
  | none => s
  | some r =>
    match r.kind with
    | .invoke _ =>
      finishRequest { s with outcomes := s.outcomes ++ [(r.id, Outcome.failedTimeout)] }
    | .subscribeReq =>
      { s with outcomes := s.outcomes ++ [(r.id, Outcome.failedTimeout)] }
    | .unsubscribeReq =>
      { s with outcomes := s.outcomes ++ [(r.id, Outcome.failedTimeout)] }
    | _ =>
      let s1 := finishRequest s
      { s1 with outcomes := s1.outcomes ++ [(r.id, Outcome.failedTimeout)] }

/-- Embeds the `emberTree` handler for an `InvocationResult` payload:
the client emits `invocationResult` and then calls `this._callback(undefined,
root)`.  The callback slot holds the active request's callback; for an
active invocation it clears the timeout, resolves with the received result
(whatever its invocation id) and calls `_finishRequest()`. -/
def receiveInvocationResult (s : ClientState) (resultId : Nat) : ClientState :=
  match s.activeRequest with
  | none => s
  | some r =>
    match r.kind with
    | .invoke _ =>
      finishRequest
        { s with timeoutArmed := false
                 outcomes := s.outcomes ++ [(r.id, Outcome.resolvedInvocation resultId)] }
    | _ => s

/-- Embeds the path taken when an inbound root matches the active
`getDirectory` / `setValue` / `matrixOPeration` request: `_clearTimeout()`,
`_finishRequest()`, then `resolve(node)`. -/
def receiveMatchedResponse (s : ClientState) : ClientState :=
  match s.activeRequest with
  | none => s
  | some r =>
    match r.kind with
    | .getDir =>
      let s1 := finishRequest { s with timeoutArmed := false }
      { s1 with outcomes := s1.outcomes ++ [(r.id, Outcome.resolvedNode)] }
    | .setVal =>
      let s1 := finishRequest { s with timeoutArmed := false }
      { s1 with outcomes := s1.outcomes ++ [(r.id, Outcome.resolvedNode)] }
    | .matrixOp =>
      let s1 := finishRequest { s with timeoutArmed := false }
      { s1 with outcomes := s1.outcomes ++ [(r.id, Outcome.resolvedNode)] }
    | _ => s

/-- States reachable in a session: the initial state, closed under
enqueueing a request, a timer expiry, an inbound `InvocationResult`, and an
inbound matched response. -/
inductive Reachable : ClientState → Prop where
  | init : Reachable initialState
  | add {s : ClientState} (r : Request) : Reachable s → Reachable (addRequest s r)
  | timeoutFires {s : ClientState} : Reachable s → s.timeoutArmed = true →
      Reachable (timeoutRequest s)
  | invocationArrives {s : ClientState} (resultId : Nat) : Reachable s →
      Reachable (receiveInvocationResult s resultId)
  | responseArrives {s : ClientState} : Reachable s →
      Reachable (receiveMatchedResponse s)

theorem activateFuel_active_some {fuel : Nat} {s : ClientState} {r : Request}
    (h : s.activeRequest = some r) : activateFuel fuel s = s := by
  cases fuel with
  | zero => rfl
  | succ n => simp [activateFuel, h]

theorem activateFuel_sentLog (fuel : Nat) (s : ClientState) :
    ∃ ex, (activateFuel fuel s).sentLog = s.sentLog ++ ex := by
  induction fuel generalizing s with
  | zero => exact ⟨[], by simp [activateFuel]⟩
  | succ n ih =>
    match h : s.activeRequest with
    | some r => exact ⟨[], by simp [activateFuel, h]⟩
    | none =>
      match hp : s.pendingRequests with
      | [] => exact ⟨[], by simp [activateFuel, h, hp]⟩
      | r :: rest =>
        by_cases hw : awaitsResponse r.kind
        · exact ⟨[r.id], by simp [activateFuel, h, hp, hw]⟩
        · obtain ⟨ex, hex⟩ := ih
            { s with pendingRequests := rest, activeRequest := none,
                     timeoutArmed := false, sentLog := s.sentLog ++ [r.id] }
          exact ⟨[r.id] ++ ex, by simp [activateFuel, h, hp, hw, hex]⟩

theorem activateFuel_outcomes (fuel : Nat) (s : ClientState) :
    ∃ ex, (activateFuel fuel s).outcomes = s.outcomes ++ ex := by
  induction fuel generalizing s with
  | zero => exact ⟨[], by simp [activateFuel]⟩
  | succ n ih =>
    match h : s.activeRequest with
    | some r => exact ⟨[], by simp [activateFuel, h]⟩
    | none =>
      match hp : s.pendingRequests with
      | [] => exact ⟨[], by simp [activateFuel, h, hp]⟩
      | r :: rest =>
        by_cases hw : awaitsResponse r.kind
        · exact ⟨[], by simp [activateFuel, h, hp, hw]⟩
        · obtain ⟨ex, hex⟩ := ih
            { s with pendingRequests := rest, activeRequest := none,
                     timeoutArmed := false, sentLog := s.sentLog ++ [r.id] }
          exact ⟨ex ++ [(r.id, Outcome.resolvedOk)], by
            simp [activateFuel, h, hp, hw, hex]⟩

theorem makeRequest_active_some {s : ClientState} {r : Request}
    (h : s.activeRequest = some r) : makeRequest s = s :=
  activateFuel_active_some h

theorem makeRequest_sends_head {s : ClientState} {next : Request} {rest : List Request}
    (hidle : s.activeRequest = none) (hp : s.pendingRequests = next :: rest) :
    ∃ more, (makeRequest s).sentLog = s.sentLog ++ next.id :: more := by
  have hlen : s.pendingRequests.length = rest.length + 1 := by simp [hp]
  unfold makeRequest
  rw [hlen]
  by_cases hw : awaitsResponse next.kind
  · exact ⟨[], by simp [activateFuel, hidle, hp, hw]⟩
  · obtain ⟨ex, hex⟩ := activateFuel_sentLog rest.length
      { s with pendingRequests := rest, activeRequest := none,
               timeoutArmed := false, sentLog := s.sentLog ++ [next.id] }
    exact ⟨ex, by simp [activateFuel, hidle, hp, hw, hex]⟩

theorem makeRequest_empty {s : ClientState}
    (hp : s.pendingRequests = []) :
    makeRequest s = s := by
  unfold makeRequest
  rw [hp]
  rfl

theorem finishRequest_outcomes (s : ClientState) :
    ∃ ex, (finishRequest s).outcomes = s.outcomes ++ ex := by
  unfold finishRequest makeRequest
  exact activateFuel_outcomes _ _

theorem finishRequest_sends_head {s : ClientState} {next : Request} {rest : List Request}
    (hp : s.pendingRequests = next :: rest) :
    ∃ more, (finishRequest s).sentLog = s.sentLog ++ next.id :: more := by
  unfold finishRequest
  exact makeRequest_sends_head rfl (by simpa using hp)

theorem finishRequest_pending_empty {s : ClientState}
    (hp : s.pendingRequests = []) :
    (finishRequest s).activeRequest = none := by
  unfold finishRequest
  rw [makeRequest_empty (by simpa using hp)]

/-- A state is well formed when the active slot never holds a
`subscribe`/`unsubscribe` record: those requests complete synchronously
inside their activation, so they are never left in flight. -/
def ActiveOk (s : ClientState) : Prop :=
  ∀ r : Request, s.activeRequest = some r → awaitsResponse r.kind = true

theorem activateFuel_activeOk {fuel : Nat} {s : ClientState}
    (h : ActiveOk s) : ActiveOk (activateFuel fuel s) := by
  induction fuel generalizing s with
  | zero => simpa [activateFuel] using h
  | succ n ih =>
    match hact : s.activeRequest with
    | some r => simpa [activateFuel, hact] using h
    | none =>
      match hp : s.pendingRequests with
      | [] =>
        intro r hr
        simp [activateFuel, hact, hp] at hr
      | r :: rest =>
        by_cases hw : awaitsResponse r.kind
        · intro q hq
          simp [activateFuel, hact, hp, hw] at hq
          subst hq
          exact hw
        · intro q hq
          simp only [activateFuel, hact, hp, hw] at hq
          simp only [Bool.false_eq_true, if_false] at hq
          have : ActiveOk
              { s with pendingRequests := rest, activeRequest := none,
                       timeoutArmed := false, sentLog := s.sentLog ++ [r.id] } := by
            intro q' hq'
            simp at hq'
          have h2 := ih this
          exact h2 q hq

theorem makeRequest_activeOk {s : ClientState} (h : ActiveOk s) :
    ActiveOk (makeRequest s) :=
  activateFuel_activeOk h

theorem reachable_activeOk {s : ClientState} (h : Reachable s) : ActiveOk s := by
  induction h with
  | init => intro r hr; simp [initialState] at hr
  | add r _ ih =>
    apply makeRequest_activeOk
    intro q hq
    exact ih q hq
  | timeoutFires _ _ ih =>
    rename_i s' _ _
    unfold timeoutRequest
    match hact : s'.activeRequest with
    | none => simpa [hact] using ih
    | some r =>
      have hr := ih r hact
      match hk : r.kind with
      | .invoke j =>
        simp only [hact, hk]
        apply makeRequest_activeOk
        intro q hq
        simp at hq
      | .getDir =>
        simp only [hact, hk]
        intro q hq
        simp only [ClientState.activeRequest] at hq
        have : ActiveOk (finishRequest s') := by
          apply makeRequest_activeOk
          intro q' hq'
          simp at hq'
        exact this q hq
      | .setVal =>
        simp only [hact, hk]
        intro q hq
        simp only [ClientState.activeRequest] at hq
        have : ActiveOk (finishRequest s') := by
          apply makeRequest_activeOk
          intro q' hq'
          simp at hq'
        exact this q hq
      | .matrixOp =>
        simp only [hact, hk]
        intro q hq
        simp only [ClientState.activeRequest] at hq
        have : ActiveOk (finishRequest s') := by
          apply makeRequest_activeOk
          intro q' hq'
          simp at hq'
        exact this q hq
      | .subscribeReq => rw [hk] at hr; simp [awaitsResponse] at hr
      | .unsubscribeReq => rw [hk] at hr; simp [awaitsResponse] at hr
  | invocationArrives resultId _ ih =>
    rename_i s' _
    unfold receiveInvocationResult
    match hact : s'.activeRequest with
    | none => simpa [hact] using ih
    | some r =>
      match hk : r.kind with
      | .invoke j =>
        simp only [hact, hk]
        apply makeRequest_activeOk
        intro q hq
        simp at hq
      | .getDir => simpa [hact, hk] using ih
      | .setVal => simpa [hact, hk] using ih
      | .matrixOp => simpa [hact, hk] using ih
      | .subscribeReq => simpa [hact, hk] using ih
      | .unsubscribeReq => simpa [hact, hk] using ih
  | responseArrives _ ih =>
    rename_i s' _
    unfold receiveMatchedResponse
    match hact : s'.activeRequest with
    | none => simpa [hact] using ih
    | some r =>
      match hk : r.kind with
      | .getDir =>
        simp only [hact, hk]
        intro q hq
        simp only [ClientState.activeRequest] at hq
        have : ActiveOk (finishRequest { s' with timeoutArmed := false }) := by
          apply makeRequest_activeOk
          intro q' hq'
          simp at hq'
        exact this q hq
      | .setVal =>
        simp only [hact, hk]
        intro q hq
        simp only [ClientState.activeRequest] at hq
        have : ActiveOk (finishRequest { s' with timeoutArmed := false }) := by
          apply makeRequest_activeOk
          intro q' hq'
          simp at hq'
        exact this q hq
      | .matrixOp =>
        simp only [hact, hk]
        intro q hq
        simp only [ClientState.activeRequest] at hq
        have : ActiveOk (finishRequest { s' with timeoutArmed := false }) := by
          apply makeRequest_activeOk
          intro q' hq'
          simp at hq'
        exact this q hq
      | .invoke j => simpa [hact, hk] using ih
      | .subscribeReq => simpa [hact, hk] using ih
      | .unsubscribeReq => simpa [hact, hk] using ih

/-- Claim C1.  While a request is in flight, `addRequest` only enqueues: the
active request, the sent-byte log and everything else are untouched, and the
new record goes to the back of `_pendingRequests`; `_makeRequest` on a busy
pipeline is the identity (it activates only when `_activeRequest` is null);
and the send of the next queued request happens inside `_finishRequest` of
the previously active one — so between the completion of request `i` and the
start of request `i + 1` no request-originated bytes are written. -/
theorem addRequest_busy_only_enqueues
    (s : ClientState) (r q next : Request) (rest : List Request)
    (hbusy : s.activeRequest = some r) :
    addRequest s q = { s with pendingRequests := s.pendingRequests ++ [q] } ∧
    makeRequest s = s ∧
    (s.pendingRequests = next :: rest →
      ∃ more, (finishRequest s).sentLog = s.sentLog ++ next.id :: more) := by
  refine ⟨?_, makeRequest_active_some hbusy, ?_⟩
  · unfold addRequest
    exact makeRequest_active_some (s := { s with pendingRequests := s.pendingRequests ++ [q] })
      (r := r) hbusy
  · intro hp
    unfold finishRequest
    exact makeRequest_sends_head (s := { s with timeoutArmed := false, activeRequest := none })
      rfl (by simpa using hp)

/-- Witness for `addRequest_busy_only_enqueues` at a concrete busy state. -/
theorem addRequest_busy_only_enqueues_witness :
    addRequest
        { pendingRequests := [⟨2, RequestKind.setVal⟩], activeRequest := some ⟨1, RequestKind.getDir⟩,
          timeoutArmed := true, sentLog := [1], outcomes := [] } ⟨3, RequestKind.getDir⟩
      = { pendingRequests := [⟨2, RequestKind.setVal⟩, ⟨3, RequestKind.getDir⟩],
          activeRequest := some ⟨1, RequestKind.getDir⟩,
          timeoutArmed := true, sentLog := [1], outcomes := [] } ∧
    makeRequest
        { pendingRequests := [⟨2, RequestKind.setVal⟩], activeRequest := some ⟨1, RequestKind.getDir⟩,
          timeoutArmed := true, sentLog := [1], outcomes := [] }
      = { pendingRequests := [⟨2, RequestKind.setVal⟩], activeRequest := some ⟨1, RequestKind.getDir⟩,
          timeoutArmed := true, sentLog := [1], outcomes := [] } ∧
    ∃ more,
      (finishRequest
        { pendingRequests := [⟨2, RequestKind.setVal⟩], activeRequest := some ⟨1, RequestKind.getDir⟩,
          timeoutArmed := true, sentLog := [1], outcomes := [] }).sentLog = [1] ++ 2 :: more := by
  have h := addRequest_busy_only_enqueues
    { pendingRequests := [⟨2, RequestKind.setVal⟩], activeRequest := some ⟨1, RequestKind.getDir⟩,
      timeoutArmed := true, sentLog := [1], outcomes := [] }
    ⟨1, RequestKind.getDir⟩ ⟨3, RequestKind.getDir⟩ ⟨2, RequestKind.setVal⟩ [] rfl
  exact ⟨h.1, h.2.1, h.2.2 rfl⟩

/-- Claim C5.  In every reachable session state with an active request, a
deadline expiry fails that request's waiter with the timeout error and the
pipeline advances: the next queued request (if any) is sent, and with an
empty queue the active slot is left empty.  (Reachability matters: the
`subscribe`/`unsubscribe` error branches lack `_finishRequest`, but those
requests complete synchronously on activation and so are never the in-flight
request when a deadline expires.) -/
theorem timeout_fails_waiter_and_advances
    (s : ClientState) (r : Request)
    (hreach : Reachable s) (hact : s.activeRequest = some r) :
    (r.id, Outcome.failedTimeout) ∈ (timeoutRequest s).outcomes ∧
    (∀ q rest, s.pendingRequests = q :: rest → q.id ∈ (timeoutRequest s).sentLog) ∧
    (s.pendingRequests = [] → (timeoutRequest s).activeRequest = none) := by
  have hok := reachable_activeOk hreach r hact
  have hfin :
      timeoutRequest s = finishRequest { s with outcomes := s.outcomes ++ [(r.id, Outcome.failedTimeout)] } ∨
      (timeoutRequest s).outcomes = (finishRequest s).outcomes ++ [(r.id, Outcome.failedTimeout)] ∧
        (timeoutRequest s).sentLog = (finishRequest s).sentLog ∧
        (timeoutRequest s).activeRequest = (finishRequest s).activeRequest := by
    match hk : r.kind with
    | .invoke j => exact Or.inl (by simp [timeoutRequest, hact, hk])
    | .getDir => exact Or.inr (by simp [timeoutRequest, hact, hk])
    | .setVal => exact Or.inr (by simp [timeoutRequest, hact, hk])
    | .matrixOp => exact Or.inr (by simp [timeoutRequest, hact, hk])
    | .subscribeReq => rw [hk] at hok; simp [awaitsResponse] at hok
    | .unsubscribeReq => rw [hk] at hok; simp [awaitsResponse] at hok
  rcases hfin with heq | ⟨hout, hsent, hactv⟩
  · constructor
    · rw [heq]
      obtain ⟨ex, hex⟩ := finishRequest_outcomes
        { s with outcomes := s.outcomes ++ [(r.id, Outcome.failedTimeout)] }
      rw [hex]
      simp
    constructor
    · intro q rest hp
      rw [heq]
      obtain ⟨more, hmore⟩ := finishRequest_sends_head
        (s := { s with outcomes := s.outcomes ++ [(r.id, Outcome.failedTimeout)] })
        (by simpa using hp)
      rw [hmore]
      simp
    · intro hp
      rw [heq]
      exact finishRequest_pending_empty (by simpa using hp)
  · constructor
    · rw [hout]; simp
    constructor
    · intro q rest hp
      rw [hsent]
      obtain ⟨more, hmore⟩ := finishRequest_sends_head (s := s) hp
      rw [hmore]
      simp
    · intro hp
      rw [hactv]
      exact finishRequest_pending_empty hp

/-- Witness for `timeout_fails_waiter_and_advances`: a reachable state with
an active `getDirectory` request and one queued `setValue` request. -/
theorem timeout_fails_waiter_and_advances_witness :
    (1, Outcome.failedTimeout) ∈
      (timeoutRequest (addRequest (addRequest initialState ⟨1, RequestKind.getDir⟩)
        ⟨2, RequestKind.setVal⟩)).outcomes ∧
    2 ∈ (timeoutRequest (addRequest (addRequest initialState ⟨1, RequestKind.getDir⟩)
        ⟨2, RequestKind.setVal⟩)).sentLog := by
  have h := timeout_fails_waiter_and_advances
    (addRequest (addRequest initialState ⟨1, RequestKind.getDir⟩) ⟨2, RequestKind.setVal⟩)
    ⟨1, RequestKind.getDir⟩
    (Reachable.add _ (Reachable.add _ Reachable.init))
    (by decide)
  exact ⟨h.1, h.2.1 ⟨2, RequestKind.setVal⟩ [] (by decide)⟩

/-- Claim C7 counterexample.  Two invocations enqueued back to back (ids 1
and 2, invocation-ids 1 and 2); the peer answers first with the
`InvocationResult` carrying invocation-id 2.  The first call's waiter
resolves with that result — the invocation-id is never inspected — refuting
the claim that each waiter resolves with its own invocation-id. -/
theorem invocation_matched_by_id_counterexample :
    (1, Outcome.resolvedInvocation 2) ∈
      (receiveInvocationResult
        (addRequest (addRequest initialState ⟨1, RequestKind.invoke 1⟩)
          ⟨2, RequestKind.invoke 2⟩) 2).outcomes ∧
    (1, Outcome.resolvedInvocation 1) ∉
      (receiveInvocationResult
        (addRequest (addRequest initialState ⟨1, RequestKind.invoke 1⟩)
          ⟨2, RequestKind.invoke 2⟩) 2).outcomes := by
  decide

/-- Claim C7 as amended.  The active invocation's waiter resolves with
whatever `InvocationResult` arrives first while it is active, regardless of
that result's invocation-id; the id is not compared against the request's
own invocation-id.  (Each waiter gets its own id only when the peer answers
in order.) -/
theorem invocation_resolved_with_first_result
    (s : ClientState) (r : Request) (j resultId : Nat)
    (hact : s.activeRequest = some r) (hk : r.kind = RequestKind.invoke j) :
    (r.id, Outcome.resolvedInvocation resultId) ∈
      (receiveInvocationResult s resultId).outcomes := by
  simp only [receiveInvocationResult, hact, hk]
  obtain ⟨ex, hex⟩ := finishRequest_outcomes
    { s with activeRequest := some r, timeoutArmed := false,
             outcomes := s.outcomes ++ [(r.id, Outcome.resolvedInvocation resultId)] }
  rw [hex]
  simp

/-- Witness for `invocation_resolved_with_first_result`. -/
theorem invocation_resolved_with_first_result_witness :
    (1, Outcome.resolvedInvocation 7) ∈
      (receiveInvocationResult (addRequest initialState ⟨1, RequestKind.invoke 1⟩) 7).outcomes :=
  invocation_resolved_with_first_result
    (addRequest initialState ⟨1, RequestKind.invoke 1⟩) ⟨1, RequestKind.invoke 1⟩ 1 7
    (by decide) rfl

/-- Synchronous rejection reasons of the facade operations. -/
inductive ClientError where
  | invalidConnection
  | emberAccessError
deriving DecidableEq, Repr

/-- Declared dimensions of a matrix node. -/
structure MatrixInfo where
  targetCount : Nat
  sourceCount : Nat
deriving DecidableEq, Repr

/-- Modelled from the spec: `Matrix.validateConnection` is not among the
provided sources.  Per the spec, the matrix-operation preflight "validates
target and source IDs against declared `targetCount`/`sourceCount`, rejects
out-of-range before enqueueing; fails with `InvalidConnection` on
violation"; the concrete scenario (`sourceCount = 2`, `sources = [1,2]`
accepted, `sources = [5]` rejected) fixes the valid id range as
`1 .. count`. -/
def validateConnection (m : MatrixInfo) (targetID : Nat) (sources : List Nat) : Bool :=
  decide (targetID ≤ m.targetCount) &&
    sources.all (fun sourceId => decide (sourceId ≤ m.sourceCount))

/-- Embeds `matrixOPeration` up to its synchronous preflight: the sources
array is validated via `matrixNode.validateConnection` and on violation the
promise is rejected before `addRequest` is reached; otherwise the request
record is enqueued. Returns the synchronous rejection (if any) and the
resulting pipeline state. -/
def matrixOperationCall (s : ClientState) (m : MatrixInfo) (targetID : Nat)
    (sources : List Nat) (rid : Nat) : Option ClientError × ClientState :=
  if validateConnection m targetID sources then
    (none, addRequest s ⟨rid, RequestKind.matrixOp⟩)
  else
    (some ClientError.invalidConnection, s)

/-- Embeds `setValue`: a node that is neither a `Parameter` nor a
`QualifiedParameter` is rejected with `EmberAccessError` before
`addRequest`; otherwise the request record is enqueued. -/
def setValueCall (s : ClientState) (nodeIsParameterKind : Bool) (rid : Nat) :
    Option ClientError × ClientState :=
  if nodeIsParameterKind then (none, addRequest s ⟨rid, RequestKind.setVal⟩)
  else (some ClientError.emberAccessError, s)

/-- Claim C9.  A matrix operation whose target or one of whose source ids is
out of the declared range is rejected synchronously with
`InvalidConnection`, and a `setValue` on a non-parameter node is rejected
synchronously; in both cases the pipeline state (pending queue, active
request, sent bytes) is returned unchanged — nothing is enqueued. -/
theorem out_of_range_rejected_without_pipeline
    (s : ClientState) (m : MatrixInfo) (targetID : Nat) (sources : List Nat)
    (rid rid2 : Nat)
    (hbad : ¬ (targetID ≤ m.targetCount ∧ ∀ x ∈ sources, x ≤ m.sourceCount)) :
    matrixOperationCall s m targetID sources rid =
      (some ClientError.invalidConnection, s) ∧
    setValueCall s false rid2 = (some ClientError.emberAccessError, s) := by
  constructor
  · unfold matrixOperationCall
    have hv : validateConnection m targetID sources = false := by
      unfold validateConnection
      rw [Bool.and_eq_false_iff]
      by_cases ht : targetID ≤ m.targetCount
      · right
        rw [List.all_eq_false]
        push_neg at hbad
        obtain ⟨x, hx, hxc⟩ := hbad ht
        exact ⟨x, hx, by simpa using hxc⟩
      · left; simpa using ht
    rw [hv]
    rfl
  · rfl

/-- Witness for `out_of_range_rejected_without_pipeline`: a 4×2 matrix,
`matrixConnect(target 3, sources [5])` as in the spec scenario. -/
theorem out_of_range_rejected_without_pipeline_witness :
    matrixOperationCall initialState ⟨4, 2⟩ 3 [5] 10 =
      (some ClientError.invalidConnection, initialState) ∧
    setValueCall initialState false 11 = (some ClientError.emberAccessError, initialState) :=
  out_of_range_rejected_without_pipeline initialState ⟨4, 2⟩ 3 [5] 10 11 (by decide)

/-- The callback registrations of a tree node together with the type flags
the `subscribe`/`unsubscribe` guards inspect. -/
structure NodeModel where
  isParam : Bool
  isMatrixNode : Bool
  isStream : Bool
  callbacks : List Nat
deriving DecidableEq, Repr

/-- Embeds `subscribe`: only for a (parameter or matrix) that is a stream is
a request enqueued and a promise returned; for every other node the callback
is registered locally via `qnode.addCallback(callback)` and the function
returns `undefined` (modelled as `none`). -/
def subscribeCall (s : ClientState) (qnode : NodeModel) (cb : Nat) (rid : Nat) :
    Option Unit × ClientState × NodeModel :=
  if (qnode.isParam || qnode.isMatrixNode) && qnode.isStream then
    (some (), addRequest s ⟨rid, RequestKind.subscribeReq⟩, qnode)
  else
    (none, s, { qnode with callbacks := qnode.callbacks ++ [cb] })

/-- Embeds `unsubscribe`: only for a parameter that is a stream is a request
enqueued; for every other node the function does nothing and returns
`undefined`. -/
def unsubscribeCall (s : ClientState) (qnode : NodeModel) (rid : Nat) :
    Option Unit × ClientState × NodeModel :=
  if qnode.isParam && qnode.isStream then
    (some (), addRequest s ⟨rid, RequestKind.unsubscribeReq⟩, qnode)
  else
    (none, s, qnode)

/-- Claim C10.  For a node that is not ((a parameter or a matrix) and a
stream), `subscribe` returns `undefined` rather than a promise, leaves the
pipeline untouched, and only appends the callback to the node's local
callback list; and for a node that is not (a parameter and a stream),
`unsubscribe` returns `undefined` and has no effect at all. -/
theorem subscribe_nonstream_local_only
    (s : ClientState) (qnode : NodeModel) (cb rid rid2 : Nat)
    (hsub : ((qnode.isParam || qnode.isMatrixNode) && qnode.isStream) = false)
    (hunsub : (qnode.isParam && qnode.isStream) = false) :
    subscribeCall s qnode cb rid =
      (none, s, { qnode with callbacks := qnode.callbacks ++ [cb] }) ∧
    unsubscribeCall s qnode rid2 = (none, s, qnode) := by
  constructor
  · unfold subscribeCall
    rw [hsub]
    rfl
  · unfold unsubscribeCall
    rw [hunsub]
    rfl

/-- Witness for `subscribe_nonstream_local_only`: a non-stream parameter. -/
theorem subscribe_nonstream_local_only_witness :
    subscribeCall initialState ⟨true, false, false, []⟩ 5 20 =
      (none, initialState, ⟨true, false, false, [5]⟩) ∧
    unsubscribeCall initialState ⟨true, false, false, []⟩ 21 =
      (none, initialState, ⟨true, false, false, []⟩) :=
  subscribe_nonstream_local_only initialState ⟨true, false, false, []⟩ 5 20 21
    (by decide) (by decide)

end EmberPipeline

namespace EmberTree

/-- Modelled from the spec: the tree node shape used by the merge logic.
Each non-root node carries a number unique among its siblings, scalar
content (collapsed to one optional field: `update` overwrites scalar fields
present in the fragment and preserves absent ones), and positional
children.  The root is represented as the forest of its children. -/
inductive ETree where
  | node (number : Nat) (content : Option Nat) (children : List ETree)
deriving Repr

def ETree.number : ETree → Nat
  | .node n _ _ => n

def ETree.content : ETree → Option Nat
  | .node _ c _ => c

def ETree.children : ETree → List ETree
  | .node _ _ cs => cs

theorem ETree.eta (e : ETree) : ETree.node e.number e.content e.children = e := by
  cases e
  rfl

/-- Modelled from the spec: `getElementByNumber` — first child with the
given number. -/
def findByNumber : List ETree → Nat → Option ETree
  | [], _ => none
  | e :: es, n => if e.number = n then some e else findByNumber es n

/-- Modelled from the spec: `getElementByPath` — walk the dotted numeric
path segment by segment from the receiver (here: from the root forest);
`none` on a miss, never partial. -/
def walkT : List ETree → List Nat → Option ETree
  | _, [] => none
  | f, [n] => findByNumber f n
  | f, n :: m :: rest =>
    match findByNumber f n with
    | none => none
    | some e => walkT e.children (m :: rest)

/-- Rewrites the first tree with the given number using `g`, leaving the
rest of the forest unchanged (the in-place mutation of the stored child). -/
def replaceFirst : List ETree → Nat → (ETree → ETree) → List ETree
  | [], _, _ => []
  | e :: es, n, g =>
    if e.number = n then g e :: es else e :: replaceFirst es n g

/-- Rewrites the node at a dotted numeric path in place. -/
def mapAtPath : List ETree → List Nat → (ETree → ETree) → List ETree
  | f, [], _ => f
  | f, [n], g => replaceFirst f n g
  | f, n :: m :: rest, g =>
    replaceFirst f n
      (fun e => ETree.node e.number e.content (mapAtPath e.children (m :: rest) g))

/-- Modelled from the spec: scalar part of `update` — a field present in
the fragment overwrites, an absent field is preserved. -/
def mergeContent : Option Nat → Option Nat → Option Nat
  | old, none => old
  | _, some v => some v

/-- Observable actions of the merge functions, in execution order:
`updated n` is a call `element.update(fragment)` on a stored element with
number `n`; `emitted n` is `this.emit("value-change", ...)` for a fragment
with number `n`. -/
inductive MergeEv where
  | updated (n : Nat)
  | emitted (n : Nat)
deriving DecidableEq, Repr

mutual

/-- Embeds `_handleNode(parent, node)` acting on the parent's child forest:
look up the fragment's number; add the node when missing, otherwise
`update` the stored element in place; then recurse into the fragment's
children (against the freshly added node itself when it was just added),
and emit `value-change` only when the fragment has no children. -/
def handleNode (forest : List ETree) (frag : ETree) : List ETree × List MergeEv :=
  match frag with
  | .node num c fc =>
    match findByNumber forest num with
    | none =>
      match fc with
      | [] => (forest ++ [ETree.node num c []], [MergeEv.emitted num])
      | _ :: _ =>
        let sub := handleNodeList fc fc
        (forest ++ [ETree.node num c sub.1], sub.2)
    | some e =>
      match fc with
      | [] =>
        (replaceFirst forest num
          (fun e0 => ETree.node e0.number (mergeContent e0.content c) e0.children),
         [MergeEv.updated num, MergeEv.emitted num])
      | _ :: _ =>
        let sub := handleNodeList e.children fc
        (replaceFirst forest num
          (fun e0 => ETree.node e0.number (mergeContent e0.content c) sub.1),
         MergeEv.updated num :: sub.2)

/-- The loop over a fragment's children in `_handleNode` /
`_handleQualifiedNode`, threading the evolving child forest. -/
def handleNodeList (forest : List ETree) (frags : List ETree) : List ETree × List MergeEv :=
  match frags with
  | [] => (forest, [])
  | f :: fs =>
    let r1 := handleNode forest f
    let r2 := handleNodeList r1.1 fs
    (r2.1, r1.2 ++ r2.2)

end

/-- A qualified fragment: a node carrying its absolute dotted numeric path.
Its own children are positional fragments (the nested positional form the
decoder produces below a qualified node). -/
structure QFrag where
  path : List Nat
  content : Option Nat
  children : List ETree

def lastNum (p : List Nat) : Nat := p.getLastD 0

/-- Embeds `_handleQualifiedNode(parent, node)` acting on the local root
forest.  If an element already exists at the fragment's path, the client
emits `value-change` FIRST and only then calls `element.update(node)`
(source order, lines 189-191).  Otherwise a path of length 1 is added under
the root; for a longer path the parent is looked up at the popped path —
when absent the fragment is dropped, when present the node is attached via
`addChild` followed by the self-merge `parent.update(parent)` (an `update`
call that, merging a node with itself, changes nothing).  In every kept
case the fragment's children are then handled against the stored element. -/
def handleQualified (t : List ETree) (frag : QFrag) : List ETree × List MergeEv :=
  match walkT t frag.path with
  | some e =>
    let sub := handleNodeList e.children frag.children
    (mapAtPath t frag.path
      (fun e0 => ETree.node e0.number (mergeContent e0.content frag.content)
        (handleNodeList e0.children frag.children).1),
     MergeEv.emitted (lastNum frag.path) :: MergeEv.updated (lastNum frag.path) :: sub.2)
  | none =>
    match frag.path with
    | [] => (t, [])
    | [n] =>
      let sub := handleNodeList frag.children frag.children
      (t ++ [ETree.node n frag.content sub.1], sub.2)
    | n :: m :: rest =>
      let parentPath := (n :: m :: rest).dropLast
      match walkT t parentPath with
      | none => (t, [])
      | some _ =>
        let sub := handleNodeList frag.children frag.children
        let newNode := ETree.node (lastNum (n :: m :: rest)) frag.content sub.1
        (mapAtPath t parentPath
          (fun e0 => ETree.node e0.number e0.content (e0.children ++ [newNode])),
         MergeEv.updated (lastNum parentPath) :: sub.2)

/-- Claim C6 evidence.  At a tree holding a node numbered 1 and a qualified
fragment for the existing path `1`, `_handleQualifiedNode` emits
`value-change` BEFORE calling `element.update(node)`; the positional
`_handleNode` on the same shape updates first and emits afterwards.  This
refutes the claim (and the spec's ordering guarantee) for the qualified
path. -/
theorem valuechange_emitted_before_update_qualified :
    (handleQualified [ETree.node 1 (some 0) []] ⟨[1], some 5, []⟩).2
      = [MergeEv.emitted 1, MergeEv.updated 1] ∧
    (handleNode [ETree.node 1 (some 0) []] (ETree.node 1 (some 5) [])).2
      = [MergeEv.updated 1, MergeEv.emitted 1] := by
  constructor <;> rfl

theorem findByNumber_number {f : List ETree} {n : Nat} {e : ETree}
    (h : findByNumber f n = some e) : e.number = n := by
  induction f with
  | nil => simp [findByNumber] at h
  | cons a as ih =>
    by_cases ha : a.number = n
    · simp [findByNumber, ha] at h
      subst h
      exact ha
    · simp [findByNumber, ha] at h
      exact ih h

theorem replaceFirst_not_found {f : List ETree} {n : Nat} {g : ETree → ETree}
    (h : findByNumber f n = none) : replaceFirst f n g = f := by
  induction f with
  | nil => rfl
  | cons a as ih =>
    by_cases ha : a.number = n
    · simp [findByNumber, ha] at h
    · simp [findByNumber, ha] at h
      simp [replaceFirst, ha, ih h]

theorem replaceFirst_congr {f : List ETree} {n : Nat} {g1 g2 : ETree → ETree}
    (h : ∀ e, findByNumber f n = some e → g1 e = g2 e) :
    replaceFirst f n g1 = replaceFirst f n g2 := by
  induction f with
  | nil => rfl
  | cons a as ih =>
    by_cases ha : a.number = n
    · simp [replaceFirst, ha]
      exact h a (by simp [findByNumber, ha])
    · simp [replaceFirst, ha]
      exact ih (fun e he => h e (by simp [findByNumber, ha, he]))

theorem replaceFirst_id {f : List ETree} {n : Nat} :
    replaceFirst f n (fun e => e) = f := by
  induction f with
  | nil => rfl
  | cons a as ih =>
    by_cases ha : a.number = n
    · simp [replaceFirst, ha]
    · simp [replaceFirst, ha, ih]

theorem findByNumber_replaceFirst {f : List ETree} {n : Nat} {g : ETree → ETree} {e : ETree}
    (h : findByNumber f n = some e) (hg : (g e).number = n) :
    findByNumber (replaceFirst f n g) n = some (g e) := by
  induction f with
  | nil => simp [findByNumber] at h
  | cons a as ih =>
    by_cases ha : a.number = n
    · simp [findByNumber, ha] at h
      subst h
      simp [replaceFirst, ha, findByNumber, hg]
    · simp [findByNumber, ha] at h
      simp [replaceFirst, ha, findByNumber, ih h]

theorem findByNumber_append_none {f g : List ETree} {n : Nat}
    (h : findByNumber f n = none) :
    findByNumber (f ++ g) n = findByNumber g n := by
  induction f with
  | nil => rfl
  | cons a as ih =>
    by_cases ha : a.number = n
    · simp [findByNumber, ha] at h
    · simp [findByNumber, ha] at h
      simp [findByNumber, ha, ih h]

theorem walkT_cons {t : List ETree} {n : Nat} {q : List Nat} {e : ETree}
    (h : findByNumber t n = some e) (hq : q ≠ []) :
    walkT t (n :: q) = walkT e.children q := by
  match q with
  | [] => exact absurd rfl hq
  | m :: rest => simp [walkT, h]

theorem walkT_cons_none {t : List ETree} {n : Nat} {q : List Nat}
    (h : findByNumber t n = none) :
    walkT t (n :: q) = none := by
  match q with
  | [] => simpa [walkT] using h
  | m :: rest => simp [walkT, h]

theorem mergeContent_none (x : Option Nat) : mergeContent x none = x := rfl

theorem mergeContent_some (x : Option Nat) (v : Nat) :
    mergeContent x (some v) = some v := rfl

theorem handleNodeList_nil (forest : List ETree) :
    handleNodeList forest [] = (forest, []) := rfl

theorem handleNodeList_single (forest : List ETree) (f : ETree) :
    (handleNodeList forest [f]).1 = (handleNode forest f).1 := by
  simp [handleNodeList]

/-- The positional form of a childless fragment at path `p` with scalar
content `c`: a singleton chain of containers ending in the leaf. -/
def posFragment : List Nat → Nat → ETree
  | [], c => ETree.node 0 (some c) []
  | [n], c => ETree.node n (some c) []
  | n :: m :: rest, c => ETree.node n none [posFragment (m :: rest) c]

theorem posFragment_number (p : List Nat) (n : Nat) (c : Nat) :
    (posFragment (n :: p) c).number = n := by
  match p with
  | [] => rfl
  | m :: rest => rfl

theorem handleNode_chain_self (q : List Nat) (c : Nat) (hq : q ≠ []) :
    (handleNode [posFragment q c] (posFragment q c)).1 = [posFragment q c] := by
  induction q with
  | nil => exact absurd rfl hq
  | cons n rest ih =>
    match rest with
    | [] =>
      simp [posFragment, handleNode, findByNumber, ETree.number, ETree.content,
        ETree.children, replaceFirst, mergeContent]
    | m :: rest' =>
      have hih := ih (by simp)
      simp [posFragment, handleNode, findByNumber, ETree.number, handleNodeList,
        ETree.children, replaceFirst, mergeContent, ETree.content] at hih ⊢
      simp [hih]

theorem lastNum_cons_cons (n m : Nat) (rest : List Nat) :
    lastNum (n :: m :: rest) = lastNum (m :: rest) := by
  simp [lastNum, List.getLastD_cons]

theorem dropLast_cons_cons (n m : Nat) (rest : List Nat) :
    (n :: m :: rest).dropLast = n :: (m :: rest).dropLast := rfl

theorem handleQualified_descend_none {t : List ETree} {n : Nat} {q : List Nat} {c : Nat}
    (hfn : findByNumber t n = none) (hq : q ≠ []) :
    (handleQualified t ⟨n :: q, some c, []⟩).1 = t := by
  match q with
  | m :: rest =>
    have hw : walkT t (n :: m :: rest) = none := walkT_cons_none hfn
    have hw2 : walkT t (n :: (m :: rest).dropLast) = none := walkT_cons_none hfn
    simp [handleQualified, hw, hw2]

theorem handleQualified_descend {t : List ETree} {n : Nat} {q : List Nat} {c : Nat} {e : ETree}
    (hfn : findByNumber t n = some e) (hq : q ≠ []) :
    (handleQualified t ⟨n :: q, some c, []⟩).1 =
      replaceFirst t n
        (fun e0 => ETree.node e0.number e0.content
          (handleQualified e0.children ⟨q, some c, []⟩).1) := by
  match q with
  | m :: rest =>
    have hdesc : walkT t (n :: m :: rest) = walkT e.children (m :: rest) :=
      walkT_cons hfn (by simp)
    cases hw : walkT e.children (m :: rest) with
    | some e1 =>
      have hwt : walkT t (n :: m :: rest) = some e1 := by rw [hdesc, hw]
      simp only [handleQualified, hwt]
      rw [show mapAtPath t (n :: m :: rest)
            (fun e0 => ETree.node e0.number (mergeContent e0.content (some c))
              (handleNodeList e0.children []).1)
          = replaceFirst t n
            (fun e0 => ETree.node e0.number e0.content
              (mapAtPath e0.children (m :: rest)
                (fun e1 => ETree.node e1.number (mergeContent e1.content (some c))
                  (handleNodeList e1.children []).1))) from rfl]
      apply replaceFirst_congr
      intro e0 he0
      rw [hfn] at he0
      have he : e = e0 := by injection he0
      subst he
      simp only [handleQualified, hw]
    | none =>
      have hwt : walkT t (n :: m :: rest) = none := by rw [hdesc, hw]
      match rest with
      | [] =>
        have hpar : walkT t ((n :: m :: ([] : List Nat)).dropLast) = some e := by
          simpa [walkT, List.dropLast] using hfn
        simp only [handleQualified, hwt, hpar]
        simp only [mapAtPath]
        apply replaceFirst_congr
        intro e0 he0
        rw [hfn] at he0
        have he : e = e0 := by injection he0
        subst he
        simp [handleQualified, hw, handleNodeList, lastNum]
      | r :: rest' =>
        have hdl : (m :: r :: rest').dropLast ≠ [] := by
          rw [dropLast_cons_cons]
          simp
        have hpd : walkT t ((n :: m :: r :: rest').dropLast)
            = walkT e.children ((m :: r :: rest').dropLast) := by
          rw [dropLast_cons_cons]
          exact walkT_cons hfn hdl
        cases hp : walkT e.children ((m :: r :: rest').dropLast) with
        | none =>
          have hpar : walkT t ((n :: m :: r :: rest').dropLast) = none := by
            rw [hpd, hp]
          have hL : (handleQualified t ⟨n :: m :: r :: rest', some c, []⟩).1 = t := by
            simp only [handleQualified, hwt, hpar]
          rw [hL]
          conv_lhs => rw [show t = replaceFirst t n (fun e0 => e0) from replaceFirst_id.symm]
          apply replaceFirst_congr
          intro e0 he0
          rw [hfn] at he0
          have he : e = e0 := by injection he0
          subst he
          simp only [handleQualified, hw, hp]
          exact (ETree.eta e).symm
        | some p1 =>
          have hpar : walkT t ((n :: m :: r :: rest').dropLast) = some p1 := by
            rw [hpd, hp]
          have hsplit : ∀ g : ETree → ETree,
              mapAtPath t (n :: (m :: r :: rest').dropLast) g
              = replaceFirst t n
                  (fun e0 => ETree.node e0.number e0.content
                    (mapAtPath e0.children ((m :: r :: rest').dropLast) g)) := by
            intro g
            cases hdl2 : (m :: r :: rest').dropLast with
            | nil => exact absurd hdl2 hdl
            | cons a as => rfl
          simp only [handleQualified, hwt, hpar]
          rw [dropLast_cons_cons, hsplit]
          apply replaceFirst_congr
          intro e0 he0
          rw [hfn] at he0
          have he : e = e0 := by injection he0
          subst he
          simp only [handleQualified, hw, hp]
          rw [lastNum_cons_cons]

theorem handleNode_descend_none {t : List ETree} {n : Nat} {q : List Nat} {c : Nat}
    (hfn : findByNumber t n = none) (hq : q ≠ []) :
    (handleNode t (posFragment (n :: q) c)).1 = t ++ [posFragment (n :: q) c] := by
  match q with
  | m :: rest =>
    have hself := handleNode_chain_self (m :: rest) c (by simp)
    simp only [posFragment, handleNode, hfn, handleNodeList, handleNodeList_nil]
    simp [hself]

theorem handleNode_descend {t : List ETree} {n : Nat} {q : List Nat} {c : Nat} {e : ETree}
    (hfn : findByNumber t n = some e) (hq : q ≠ []) :
    (handleNode t (posFragment (n :: q) c)).1 =
      replaceFirst t n
        (fun e0 => ETree.node e0.number e0.content
          (handleNode e0.children (posFragment q c)).1) := by
  match q with
  | m :: rest =>
    simp only [posFragment, handleNode, hfn, handleNodeList, handleNodeList_nil]
    apply replaceFirst_congr
    intro e0 he0
    rw [hfn] at he0
    have he : e = e0 := by injection he0
    subst he
    simp [mergeContent_none]

theorem handleQualified_single_found {t : List ETree} {n : Nat} {c : Nat} {e : ETree}
    (hfn : findByNumber t n = some e) :
    (handleQualified t ⟨[n], some c, []⟩).1 =
      replaceFirst t n
        (fun e0 => ETree.node e0.number (mergeContent e0.content (some c)) e0.children) := by
  have hw : walkT t [n] = some e := hfn
  simp only [handleQualified, hw, mapAtPath]
  apply replaceFirst_congr
  intro e0 _
  rfl

theorem handleQualified_single_missing {t : List ETree} {n : Nat} {c : Nat}
    (hfn : findByNumber t n = none) :
    (handleQualified t ⟨[n], some c, []⟩).1 = t ++ [ETree.node n (some c) []] := by
  have hw : walkT t [n] = none := hfn
  simp [handleQualified, hw, handleNodeList_nil]

theorem handleNode_single_found {t : List ETree} {n : Nat} {c : Nat} {e : ETree}
    (hfn : findByNumber t n = some e) :
    (handleNode t (posFragment [n] c)).1 =
      replaceFirst t n
        (fun e0 => ETree.node e0.number (mergeContent e0.content (some c)) e0.children) := by
  simp [posFragment, handleNode, hfn]

theorem handleNode_single_missing {t : List ETree} {n : Nat} {c : Nat}
    (hfn : findByNumber t n = none) :
    (handleNode t (posFragment [n] c)).1 = t ++ [ETree.node n (some c) []] := by
  simp [posFragment, handleNode, hfn]

theorem qual_eq_pos : ∀ (p : List Nat) (t : List ETree) (c : Nat), p ≠ [] →
    (∀ k, 1 ≤ k → k < p.length → (walkT t (p.take k)).isSome = true) →
    (handleQualified t ⟨p, some c, []⟩).1 = (handleNode t (posFragment p c)).1 := by
  intro p
  induction p with
  | nil => intro t c hp _; exact absurd rfl hp
  | cons n q ih =>
    intro t c _ hpre
    match q with
    | [] =>
      cases hfn : findByNumber t n with
      | some e => rw [handleQualified_single_found hfn, handleNode_single_found hfn]
      | none => rw [handleQualified_single_missing hfn, handleNode_single_missing hfn]
    | m :: rest =>
      have h1 : (walkT t ((n :: m :: rest).take 1)).isSome = true := by
        apply hpre 1 (by omega)
        simp
      simp only [List.take, walkT] at h1
      obtain ⟨e, hfn⟩ := Option.isSome_iff_exists.mp h1
      rw [handleQualified_descend hfn (by simp), handleNode_descend hfn (by simp)]
      apply replaceFirst_congr
      intro e0 he0
      rw [hfn] at he0
      have he : e = e0 := by injection he0
      subst he
      have hpre' : ∀ k, 1 ≤ k → k < (m :: rest).length →
          (walkT e.children ((m :: rest).take k)).isSome = true := by
        intro k hk1 hk2
        have htake : (n :: m :: rest).take (k + 1) = n :: (m :: rest).take k := rfl
        have hne : (m :: rest).take k ≠ [] := by
          cases k with
          | zero => omega
          | succ k' => simp [List.take]
        have := hpre (k + 1) (by omega) (by simpa using hk2)
        rw [htake, walkT_cons hfn hne] at this
        exact this
      exact congrArg (ETree.node e.number e.content)
        (ih e.children c (by simp) hpre')

theorem walkT_handleQualified : ∀ (p : List Nat) (t : List ETree) (c : Nat), p ≠ [] →
    (∀ k, 1 ≤ k → k < p.length → (walkT t (p.take k)).isSome = true) →
    ∃ e, walkT (handleQualified t ⟨p, some c, []⟩).1 p = some e ∧ e.content = some c := by
  intro p
  induction p with
  | nil => intro t c hp _; exact absurd rfl hp
  | cons n q ih =>
    intro t c _ hpre
    match q with
    | [] =>
      cases hfn : findByNumber t n with
      | some e =>
        rw [handleQualified_single_found hfn]
        refine ⟨ETree.node e.number (mergeContent e.content (some c)) e.children, ?_, rfl⟩
        have hnum : (ETree.node e.number (mergeContent e.content (some c)) e.children).number
            = n := by simpa [ETree.number] using findByNumber_number hfn
        exact findByNumber_replaceFirst hfn hnum
      | none =>
        rw [handleQualified_single_missing hfn]
        refine ⟨ETree.node n (some c) [], ?_, rfl⟩
        rw [show walkT (t ++ [ETree.node n (some c) []]) [n]
            = findByNumber (t ++ [ETree.node n (some c) []]) n from rfl]
        rw [findByNumber_append_none hfn]
        simp [findByNumber, ETree.number]
    | m :: rest =>
      have h1 : (walkT t ((n :: m :: rest).take 1)).isSome = true := by
        apply hpre 1 (by omega)
        simp
      simp only [List.take, walkT] at h1
      obtain ⟨e, hfn⟩ := Option.isSome_iff_exists.mp h1
      rw [handleQualified_descend hfn (by simp)]
      have hpre' : ∀ k, 1 ≤ k → k < (m :: rest).length →
          (walkT e.children ((m :: rest).take k)).isSome = true := by
        intro k hk1 hk2
        have htake : (n :: m :: rest).take (k + 1) = n :: (m :: rest).take k := rfl
        have hne : (m :: rest).take k ≠ [] := by
          cases k with
          | zero => omega
          | succ k' => simp [List.take]
        have := hpre (k + 1) (by omega) (by simpa using hk2)
        rw [htake, walkT_cons hfn hne] at this
        exact this
      obtain ⟨e1, he1, hc1⟩ := ih e.children c (by simp) hpre'
      refine ⟨e1, ?_, hc1⟩
      have hnum : (ETree.node e.number e.content
          (handleQualified e.children ⟨m :: rest, some c, []⟩).1).number = n := by
        simpa [ETree.number] using findByNumber_number hfn
      rw [walkT_cons (findByNumber_replaceFirst hfn hnum) (by simp)]
      exact he1

/-- Claim C4.  Merging a childless qualified fragment at path `p` (with all
proper ancestors of `p` present in the local tree) installs it at exactly
the storage location a positional fragment for the same path would use: the
resulting trees are equal, and a positional walk (`getElementByPath`) of the
merged tree finds a node at `p` carrying the fragment's content — one
canonical node per path regardless of which form the peer sent. -/
theorem qualified_merge_canonical (t : List ETree) (p : List Nat) (c : Nat)
    (hp : p ≠ [])
    (hpre : ∀ k, 1 ≤ k → k < p.length → (walkT t (p.take k)).isSome = true) :
    (handleQualified t ⟨p, some c, []⟩).1 = (handleNode t (posFragment p c)).1 ∧
    ∃ e, walkT (handleQualified t ⟨p, some c, []⟩).1 p = some e ∧ e.content = some c :=
  ⟨qual_eq_pos p t c hp hpre, walkT_handleQualified p t c hp hpre⟩

/-- Witness for `qualified_merge_canonical`: tree `[node 1]`, qualified
fragment at path `1.2` with content 5. -/
theorem qualified_merge_canonical_witness :
    (handleQualified [ETree.node 1 none []] ⟨[1, 2], some 5, []⟩).1
      = (handleNode [ETree.node 1 none []] (posFragment [1, 2] 5)).1 ∧
    ∃ e, walkT (handleQualified [ETree.node 1 none []] ⟨[1, 2], some 5, []⟩).1 [1, 2]
      = some e ∧ e.content = some 5 :=
  qualified_merge_canonical [ETree.node 1 none []] [1, 2] 5 (by simp)
    (by
      intro k hk1 hk2
      have hk2' : k < 2 := by simpa using hk2
      have hk : k = 1 := by omega
      subst hk
      rfl)

end EmberTree

namespace GetDirectoryMatch

/-- An element of a received decoded root, as the `getDirectory` callback
inspects it: its absolute dotted numeric path (`getPath()`), whether its
`_parent` is a `Root` instance, and its children. -/
inductive RNode where
  | mk (path : List Nat) (parentIsRoot : Bool) (children : List RNode)

def RNode.path : RNode → List Nat
  | .mk p _ _ => p

def RNode.parentIsRoot : RNode → Bool
  | .mk _ b _ => b

def RNode.children : RNode → List RNode
  | .mk _ _ cs => cs

/-- Modelled from the spec: a node's number is the last segment of its
dotted path. -/
def RNode.num : RNode → Nat
  | .mk p _ _ => p.getLastD 0

def findByNum : List RNode → Nat → Option RNode
  | [], _ => none
  | e :: es, n => if e.num = n then some e else findByNum es n

/-- Modelled from the spec: `getElementByPath` on the received root — walk
the dotted numeric path segment by segment; `none` on a miss. -/
def walkR : List RNode → List Nat → Option RNode
  | _, [] => none
  | f, [n] => findByNum f n
  | f, n :: m :: rest =>
    match findByNum f n with
    | none => none
    | some e => walkR e.children (m :: rest)

/-- Embeds `isDirectSubPathOf(path, parent)` (EmberClient.js line 733, on
dotted numeric strings, here as segment lists): the path equals the parent
or extends it by exactly one segment. -/
def isDirectSubPathOf (path parent : List Nat) : Bool :=
  decide (path = parent) ||
    (decide (path.length = parent.length + 1) && decide (path.take parent.length = parent))

/-- What the received root offers: `node.getChildren()` is either `null` or
the element list. -/
structure Received where
  elements : Option (List RNode)

/-- Fate of the active `getDirectory` waiter after one inbound root. -/
inductive GDResult where
  | resolve
  | reject
  | stay
deriving DecidableEq, Repr

/-- Embeds the `getDirectory` response callback (EmberClient.js lines
335-388).  `node == null` returns early; an error rejects; a root-level
request resolves when the local root has children and every received child
has a `Root` parent (the failure branches re-enter the callback with an
error only — `node` is undefined there, so the early return fires and the
request stays active); otherwise the callback resolves when
`node.getElementByPath(requestedPath)` finds the target, or when the
received top-level elements are the single matrix at the requested path
(matrix target) resp. all lie at the requested path or a direct child path
of it (non-matrix target); any other root leaves the request active. -/
def gdCallback (qnodeIsRoot qnodeIsMatrix : Bool) (requestedPath : List Nat)
    (localRootHasElements : Bool) (error : Bool) (node : Option Received) : GDResult :=
  match node with
  | none => GDResult.stay
  | some recv =>
    if error then GDResult.reject
    else if qnodeIsRoot then
      if !localRootHasElements then GDResult.stay
      else
        match recv.elements with
        | some els =>
          if els.all (fun el => el.parentIsRoot) then GDResult.resolve
          else GDResult.stay
        | none => GDResult.stay
    else if (walkR (recv.elements.getD []) requestedPath).isSome then GDResult.resolve
    else
      match recv.elements with
      | some els =>
        if qnodeIsMatrix then
          match els with
          | [el] => if el.path = requestedPath then GDResult.resolve else GDResult.stay
          | _ => GDResult.stay
        else
          if els.all (fun el => isDirectSubPathOf el.path requestedPath) then GDResult.resolve
          else GDResult.stay
      | none => GDResult.stay

/-- The match condition exactly as claim C3 states it: root-level — every
child of the received root has the Root as parent; matrix target — the root
contains the matrix itself at its own path; non-matrix, non-root target —
every element of the received root lies at the target's path or at a direct
child path of it. -/
def claimMatch (qnodeIsRoot qnodeIsMatrix : Bool) (requestedPath : List Nat)
    (recv : Received) : Bool :=
  if qnodeIsRoot then (recv.elements.getD []).all (fun el => el.parentIsRoot)
  else if qnodeIsMatrix then (walkR (recv.elements.getD []) requestedPath).isSome
  else (recv.elements.getD []).all (fun el => isDirectSubPathOf el.path requestedPath)

/-- Claim C3 counterexample.  A non-matrix, non-root `getDirectory` for
path `1.2`; the received root holds one top-level element at path `1`
containing a child at path `1.2`.  `node.getElementByPath("1.2")` finds the
nested child, so the code resolves the waiter — yet the claim's condition
fails: the top-level element lies neither at the target's path nor at a
direct child path of it. -/
theorem getdirectory_match_counterexample :
    gdCallback false false [1, 2] true false
        (some ⟨some [RNode.mk [1] true [RNode.mk [1, 2] false []]]⟩)
      = GDResult.resolve ∧
    claimMatch false false [1, 2]
        ⟨some [RNode.mk [1] true [RNode.mk [1, 2] false []]]⟩ = false := by
  constructor <;> rfl

/-- The match condition as amended: the code additionally resolves whenever
the received root contains an element at the requested path at any depth,
and a root-level request also needs the local root to have children; a
matrix target needs the deep match or exactly one top-level element at the
requested path. -/
def amendedMatch (qnodeIsRoot qnodeIsMatrix : Bool) (requestedPath : List Nat)
    (localRootHasElements : Bool) (recv : Received) : Bool :=
  if qnodeIsRoot then
    localRootHasElements &&
      (match recv.elements with
       | some els => els.all (fun el => el.parentIsRoot)
       | none => false)
  else
    (walkR (recv.elements.getD []) requestedPath).isSome ||
      (match recv.elements with
       | some els =>
         if qnodeIsMatrix then
           match els with
           | [el] => decide (el.path = requestedPath)
           | _ => false
         else els.all (fun el => isDirectSubPathOf el.path requestedPath)
       | none => false)

/-- Claim C3 as amended.  On an error-free inbound root, the `getDirectory`
callback resolves the waiter exactly when the amended match condition
holds, and otherwise leaves the request active and unresolved (it never
rejects without an error). -/
theorem gdCallback_resolves_iff_amended (qr qm : Bool) (rp : List Nat) (lre : Bool)
    (recv : Received) :
    gdCallback qr qm rp lre false (some recv)
      = (if amendedMatch qr qm rp lre recv then GDResult.resolve else GDResult.stay) := by
  cases recv with
  | mk els =>
    cases els with
    | none =>
      cases qr <;> cases qm <;> cases lre <;>
        simp [gdCallback, amendedMatch, walkR, findByNum]
    | some theEls =>
      cases qr with
      | true =>
        cases lre with
        | true =>
          by_cases hall : theEls.all (fun el => el.parentIsRoot) <;>
            simp [gdCallback, amendedMatch, hall]
        | false => simp [gdCallback, amendedMatch]
      | false =>
        by_cases hwalk : (walkR theEls rp).isSome
        · simp [gdCallback, amendedMatch, hwalk]
        · cases qm with
          | true =>
            match theEls with
            | [] => simp [gdCallback, amendedMatch, hwalk]
            | [el] =>
              by_cases hpe : el.path = rp <;>
                simp [gdCallback, amendedMatch, hwalk, hpe]
            | el1 :: el2 :: more => simp [gdCallback, amendedMatch, hwalk]
          | false =>
            by_cases hall : theEls.all (fun el => isDirectSubPathOf el.path rp) <;>
              simp [gdCallback, amendedMatch, hwalk, hall]

end GetDirectoryMatch

namespace PathWalk

/-- Children a node advertises, by the node's path (segments stand for the
identifiers matched by `getNodeByPath` resp. the numbers matched by
`getNodeByPathnum`). -/
def lookupChildren (m : List (List Nat × List Nat)) (key : List Nat) : List Nat :=
  match m with
  | [] => []
  | kv :: rest => if kv.1 = key then kv.2 else lookupChildren rest key

/-- Embeds the `getNext` loop shared by `getNodeByPath` and
`getNodeByPathnum` (EmberClient.js lines 424-451 / 468-495): scan the
current node's known children for the segment at `pos`; on a match descend
one segment (returning the node when the path is exhausted); on a miss,
throw the error constructed at function entry if this position was already
missing on the previous attempt (`lastMissingPos === pos`), and otherwise
fetch the current node's directory from the peer (`getDirectory`, modelled
as learning the peer's children for the current path prefix) and retry.
`reportedPath` is the prefix baked into the error message at entry. -/
def getNextLoop (peer : List (List Nat × List Nat)) (path reportedPath : List Nat)
    (known : List (List Nat × List Nat)) (pos : Nat) (lastMissing : Option Nat) :
    Except (List Nat) (List Nat) :=
  let children := lookupChildren known (path.take pos)
  if h : pos < path.length then
    if path.get ⟨pos, h⟩ ∈ children then
      if pos + 1 ≥ path.length then Except.ok (path.take (pos + 1))
      else getNextLoop peer path reportedPath known (pos + 1) lastMissing
    else
      if lastMissing = some pos then Except.error reportedPath
      else getNextLoop peer path reportedPath
        ((path.take pos, lookupChildren peer (path.take pos)) :: known) pos (some pos)
  else
    if lastMissing = some pos then Except.error reportedPath
    else getNextLoop peer path reportedPath
      ((path.take pos, lookupChildren peer (path.take pos)) :: known) pos (some pos)
termination_by
  2 * (path.length + 1 - pos) + (if lastMissing = some pos then 0 else 1)
decreasing_by
  · by_cases hl1 : lastMissing = some (pos + 1) <;>
      by_cases hl2 : lastMissing = some pos <;>
      simp [hl1, hl2] <;> omega
  · rename_i hne
    simp [hne]
  · rename_i hne
    simp [hne]

/-- Embeds `getNodeByPath`.  Its error is built at entry as
`path.slice(0, pos + 1)` — but `pos` is referenced before its `var` is
initialised, so it is `undefined`, `pos + 1` is `NaN`, and the slice is the
empty prefix. -/
def getNodeByPathWalk (peer : List (List Nat × List Nat)) (path : List Nat) :
    Except (List Nat) (List Nat) :=
  getNextLoop peer path [] [] 0 none

/-- Embeds `getNodeByPathnum`.  Its error is built at entry as
`path.slice(0, pos)` with `pos` undefined, and `slice(0, undefined)` is the
whole path. -/
def getNodeByPathnumWalk (peer : List (List Nat × List Nat)) (path : List Nat) :
    Except (List Nat) (List Nat) :=
  getNextLoop peer path path [] 0 none

/-- Claim C8 evidence.  The walk itself works (a peer advertising the path
lets the lookup succeed), and it fails exactly on the second consecutive
miss of the same position — but the thrown error does not report the first
unknown segment: for path `7/8` against a peer advertising nothing,
`getNodeByPath` reports the empty prefix (`pos` was undefined when the
message was formatted) and `getNodeByPathnum` reports the full requested
path, neither the claimed `7`. -/
theorem walk_error_not_first_unknown_segment :
    getNodeByPathWalk [(([] : List Nat), [7]), ([7], [8])] [7, 8] = Except.ok [7, 8] ∧
    getNodeByPathWalk [] [7, 8] = Except.error [] ∧
    getNodeByPathnumWalk [] [7, 8] = Except.error [7, 8] := by
  refine ⟨?_, ?_, ?_⟩ <;>
    simp [getNodeByPathWalk, getNodeByPathnumWalk, getNextLoop, lookupChildren]

end PathWalk

namespace BerCodec

/-- Modelled from the spec: minimal-length big-endian two's-complement
contents octets of a BER integer (also used for enumerated values).  One
octet covers `-128 ≤ v < 128`; otherwise the low octet is appended to the
encoding of the arithmetically shifted remainder. -/
def encIntBytes (v : Int) : List Nat :=
  if -128 ≤ v ∧ v < 128 then [(v % 256).toNat]
  else encIntBytes (v / 256) ++ [(v % 256).toNat]
termination_by v.natAbs
decreasing_by
  have h1 := Int.ediv_add_emod v 256
  have h2 : 0 ≤ v % 256 := Int.emod_nonneg v (by norm_num)
  have h3 : v % 256 < 256 := Int.emod_lt_of_pos v (by norm_num)
  omega

/-- Big-endian accumulator of contents octets. -/
def accBytes : Int → List Nat → Int
  | s, [] => s
  | s, b :: rest => accBytes (256 * s + (b : Int)) rest

/-- Modelled from the spec: two's-complement reading of BER integer
contents octets — the first octet is signed, the rest accumulate. -/
def intFromBytes : List Nat → Int
  | [] => 0
  | b :: rest => accBytes (if b < 128 then (b : Int) else (b : Int) - 256) rest

theorem accBytes_append (s : Int) (xs ys : List Nat) :
    accBytes s (xs ++ ys) = accBytes (accBytes s xs) ys := by
  induction xs generalizing s with
  | nil => rfl
  | cons b t ih => simp [accBytes, ih]

theorem encIntBytes_ne_nil (v : Int) : encIntBytes v ≠ [] := by
  rw [encIntBytes]
  split <;> simp

theorem intFromBytes_encIntBytes (v : Int) :
    intFromBytes (encIntBytes v) = v := by
  induction v using encIntBytes.induct with
  | case1 v h =>
    have h2 : 0 ≤ v % 256 := Int.emod_nonneg v (by norm_num)
    have h3 : v % 256 < 256 := Int.emod_lt_of_pos v (by norm_num)
    have h1 := Int.ediv_add_emod v 256
    have hb : ((v % 256).toNat : Int) = v % 256 := Int.toNat_of_nonneg h2
    rw [encIntBytes, if_pos h]
    simp only [intFromBytes, accBytes]
    by_cases hlt : (v % 256).toNat < 128
    · rw [if_pos hlt]
      omega
    · rw [if_neg hlt]
      omega
  | case2 v h ih =>
    have h2 : 0 ≤ v % 256 := Int.emod_nonneg v (by norm_num)
    have h3 : v % 256 < 256 := Int.emod_lt_of_pos v (by norm_num)
    have h1 := Int.ediv_add_emod v 256
    have hb : ((v % 256).toNat : Int) = v % 256 := Int.toNat_of_nonneg h2
    rw [encIntBytes, if_neg h]
    obtain ⟨b0, t, hbt⟩ : ∃ b0 t, encIntBytes (v / 256) = b0 :: t := by
      cases hE : encIntBytes (v / 256) with
      | nil => exact absurd hE (encIntBytes_ne_nil _)
      | cons a l => exact ⟨a, l, rfl⟩
    rw [hbt] at ih ⊢
    simp only [List.cons_append, intFromBytes] at ih ⊢
    rw [accBytes_append, ih]
    simp only [accBytes]
    omega

/-- Modelled from the spec: minimal big-endian base-256 octets of an
unsigned quantity (used for the long-form length). -/
def natBytes (n : Nat) : List Nat :=
  if n < 256 then [n] else natBytes (n / 256) ++ [n % 256]
termination_by n
decreasing_by
  exact Nat.div_lt_self (by omega) (by omega)

def natAcc : Nat → List Nat → Nat
  | s, [] => s
  | s, b :: rest => natAcc (256 * s + b) rest

def natFromBytes (bs : List Nat) : Nat := natAcc 0 bs

theorem natAcc_append (s : Nat) (xs ys : List Nat) :
    natAcc s (xs ++ ys) = natAcc (natAcc s xs) ys := by
  induction xs generalizing s with
  | nil => rfl
  | cons b t ih => simp [natAcc, ih]

theorem natBytes_ne_nil (n : Nat) : natBytes n ≠ [] := by
  rw [natBytes]
  split <;> simp

theorem natAcc_natBytes (n : Nat) : natAcc 0 (natBytes n) = n := by
  induction n using natBytes.induct with
  | case1 n h =>
    rw [natBytes, if_pos h]
    simp [natAcc]
  | case2 n h ih =>
    rw [natBytes, if_neg h]
    rw [natAcc_append, ih]
    simp only [natAcc]
    omega

theorem natFromBytes_natBytes (n : Nat) : natFromBytes (natBytes n) = n :=
  natAcc_natBytes n

/-- Modelled from the spec: definite-length encoding — short form below
128, otherwise one length-of-length octet followed by the big-endian
length octets. -/
def encLen (n : Nat) : List Nat :=
  if n < 128 then [n]
  else (128 + (natBytes n).length) :: natBytes n

/-- Modelled from the spec: read a definite length, short or long form;
returns the length and the remaining octets. -/
def readLen : List Nat → Option (Nat × List Nat)
  | [] => none
  | b :: rest =>
    if b < 128 then some (b, rest)
    else
      if rest.length < b - 128 then none
      else some (natFromBytes (rest.take (b - 128)), rest.drop (b - 128))

theorem readLen_encLen (n : Nat) (rest : List Nat) :
    readLen (encLen n ++ rest) = some (n, rest) := by
  by_cases h : n < 128
  · simp [encLen, readLen, h]
  · have hk : 1 ≤ (natBytes n).length := by
      cases hE : natBytes n with
      | nil => exact absurd hE (natBytes_ne_nil n)
      | cons a l => simp
    simp only [encLen, if_neg h, List.cons_append, readLen]
    rw [if_neg (by omega)]
    have hd : 128 + (natBytes n).length - 128 = (natBytes n).length := by omega
    rw [hd]
    rw [if_neg (by simp)]
    rw [List.take_left, List.drop_left, natFromBytes_natBytes]

/-- A definite-length tag-length-value block. -/
def tlv (tag : Nat) (content : List Nat) : List Nat :=
  tag :: encLen content.length ++ content

/-- Modelled from the spec: enter a block with the expected tag, returning
its contents and the octets after the block; fails on a tag mismatch or a
truncated block. -/
def readTagged (tag : Nat) : List Nat → Option (List Nat × List Nat)
  | [] => none
  | b :: rest =>
    if b = tag then
      match readLen rest with
      | none => none
      | some (len, rest1) =>
        if rest1.length < len then none
        else some (rest1.take len, rest1.drop len)
    else none

theorem readTagged_tlv (tag : Nat) (content rest : List Nat) :
    readTagged tag (tlv tag content ++ rest) = some (content, rest) := by
  simp only [tlv, List.cons_append, List.append_assoc, readTagged, if_pos rfl]
  rw [readLen_encLen]
  show (if (content ++ rest).length < content.length then none
    else some ((content ++ rest).take content.length, (content ++ rest).drop content.length))
    = some (content, rest)
  rw [if_neg (by simp only [List.length_append]; omega)]
  rw [List.take_left, List.drop_left]

theorem readTagged_tlv_nil (tag : Nat) (content : List Nat) :
    readTagged tag (tlv tag content) = some (content, []) := by
  have := readTagged_tlv tag content []
  simpa using this

/-- Modelled from the spec: the stream sample formats.  The spec's scenario
fixes `Int32BE` at enumeration value 4; the remaining values follow the
same big/little-endian laddering from 0. -/
inductive StreamFormat where
  | int8
  | int16BE
  | int16LE
  | int32BE
  | int32LE
  | int64BE
  | int64LE
  | float32BE
  | float32LE
  | float64BE
  | float64LE
deriving DecidableEq, Repr

def streamFormatToNat : StreamFormat → Nat
  | .int8 => 0
  | .int16BE => 2
  | .int16LE => 3
  | .int32BE => 4
  | .int32LE => 5
  | .int64BE => 6
  | .int64LE => 7
  | .float32BE => 8
  | .float32LE => 9
  | .float64BE => 10
  | .float64LE => 11

def streamFormatOfNat : Nat → Option StreamFormat
  | 0 => some .int8
  | 2 => some .int16BE
  | 3 => some .int16LE
  | 4 => some .int32BE
  | 5 => some .int32LE
  | 6 => some .int64BE
  | 7 => some .int64LE
  | 8 => some .float32BE
  | 9 => some .float32LE
  | 10 => some .float64BE
  | 11 => some .float64LE
  | _ => none

theorem streamFormatOfNat_toNat (f : StreamFormat) :
    streamFormatOfNat (streamFormatToNat f) = some f := by
  cases f <;> rfl

/-- Modelled from the spec: a StreamDescription is a stream sample format
together with the byte offset into a multiplexed stream packet. -/
structure StreamDescription where
  format : StreamFormat
  offset : Int
deriving DecidableEq, Repr

/-- Modelled from the spec: `encodeStreamDescription` — the
StreamDescription application tag (application 12, constructed: octet
`0x6C`) over a context-0 block holding the format as a universal
enumerated (tag 10) and a context-1 block holding the offset as a
universal integer (tag 2), all with definite lengths. -/
def encodeStreamDescription (sd : StreamDescription) : List Nat :=
  tlv 0x6C
    (tlv 0xA0 (tlv 10 (encIntBytes (streamFormatToNat sd.format : Int)))
      ++ tlv 0xA1 (tlv 2 (encIntBytes sd.offset)))

/-- Modelled from the spec: `decodeStreamDescription` — enter the
StreamDescription application block, read the context-0 enumerated format
and the context-1 integer offset, failing on any unexpected tag, bad
length or unknown format value. -/
def decodeStreamDescription (bs : List Nat) : Option StreamDescription :=
  match readTagged 0x6C bs with
  | none => none
  | some (inner, _) =>
    match readTagged 0xA0 inner with
    | none => none
    | some (c0, innerRest) =>
      match readTagged 10 c0 with
      | none => none
      | some (fb, _) =>
        match readTagged 0xA1 innerRest with
        | none => none
        | some (c1, _) =>
          match readTagged 2 c1 with
          | none => none
          | some (ob, _) =>
            match streamFormatOfNat (intFromBytes fb).toNat with
            | none => none
            | some fmt => some ⟨fmt, intFromBytes ob⟩

theorem decode_encode_streamDescription (sd : StreamDescription) :
    decodeStreamDescription (encodeStreamDescription sd) = some sd := by
  cases sd with
  | mk fmt off =>
    unfold encodeStreamDescription decodeStreamDescription
    simp only [readTagged_tlv_nil, readTagged_tlv, intFromBytes_encIntBytes,
      Int.toNat_natCast, streamFormatOfNat_toNat]

/-- Claim C2.  Decoding the octets produced by encoding any
StreamDescription yields a field-by-field equal value; for
`{format: Int32BE, offset: 42}` the encoding is the StreamDescription
application block carrying a context-0 enumerated `4` and a context-1
integer `42`, and decoding those exact octets recovers the struct. -/
theorem streamDescription_roundtrip :
    (∀ sd : StreamDescription,
      decodeStreamDescription (encodeStreamDescription sd) = some sd) ∧
    encodeStreamDescription ⟨StreamFormat.int32BE, 42⟩
      = [0x6C, 10, 0xA0, 3, 10, 1, 4, 0xA1, 3, 2, 1, 42] ∧
    decodeStreamDescription [0x6C, 10, 0xA0, 3, 10, 1, 4, 0xA1, 3, 2, 1, 42]
      = some ⟨StreamFormat.int32BE, 42⟩ := by
  have h4 : encIntBytes 4 = [4] := by
    rw [encIntBytes]
    norm_num
    decide
  have h42 : encIntBytes 42 = [42] := by
    rw [encIntBytes]
    norm_num
    decide
  refine ⟨decode_encode_streamDescription, ?_, ?_⟩
  · show tlv 0x6C
      (tlv 0xA0 (tlv 10 (encIntBytes (streamFormatToNat StreamFormat.int32BE : Int)))
        ++ tlv 0xA1 (tlv 2 (encIntBytes (42 : Int))))
      = [0x6C, 10, 0xA0, 3, 10, 1, 4, 0xA1, 3, 2, 1, 42]
    rw [show ((streamFormatToNat StreamFormat.int32BE : Nat) : Int) = 4 from rfl]
    rw [h4, h42]
    rfl
  · rfl

end BerCodec
